import Mathlib

/-!
A verification development for the DrClaude persistence layer
(`src/models.py`): key derivation, field-level encryption, the four-table
record store, journal retrieval ordering, profile upsert, and the monthly
condensation routine, embedded shallowly in Lean.

External libraries (`cryptography`'s PBKDF2/Fernet, `json`, SQLite's
storage engine) are modelled from the spec's contracts; everything that is
code of `models.py` itself is translated directly from the source.
-/

namespace DrClaude

/-- Errors surfaced by the persistence layer.  `decryptionError` models
`cryptography.fernet.InvalidToken` (the spec's DecryptionError);
`jsonDecodeError` models `json.JSONDecodeError`. -/
inductive DBError where
  | decryptionError
  | jsonDecodeError
deriving DecidableEq

/-- Modelled from the spec: a Fernet ciphertext token (external
`cryptography` library).  Per §4.2 a token is a self-contained
authenticated blob; decryption succeeds exactly when the decrypting key
equals the producing key, so a token is modelled as the producing key
together with the protected plaintext, both opaque to the store. -/
structure Token where
  key : String
  plain : String
deriving DecidableEq

/-- The fixed application-wide salt from `Database._derive_key`
(`salt = b'dr_claude_salt'`). -/
def dr_claude_salt : String := "dr_claude_salt"

/-- Modelled from the spec: PBKDF2-HMAC-SHA256, 100000 iterations, 32-byte
output, urlsafe-base64 encoded (external `cryptography` library).  Per
§4.1 the KDF is a deterministic function of (salt, password) with
distinct passwords giving independent keys; it is modelled as an
injective deterministic map of the pair. -/
def pbkdf2_hmac_sha256 (salt password : String) : String :=
  salt ++ ":" ++ password

/-- `Database._derive_key`: derive the symmetric key from the password and
the fixed salt. -/
def derive_key (password : String) : String :=
  pbkdf2_hmac_sha256 dr_claude_salt password

/-- A row of the `journal_entries` table:
`(id INTEGER PRIMARY KEY AUTOINCREMENT, date TEXT, entry TEXT, is_condensed INTEGER DEFAULT 0)`.
The `entry` column holds a ciphertext token. -/
structure JournalRow where
  id : Nat
  date : String
  entry : Token
  is_condensed : Bool
deriving DecidableEq

/-- A row of the `therapy_sessions` table. -/
structure SessionRow where
  id : Nat
  date : String
  approach : String
  session_data : Token
deriving DecidableEq

/-- A row of the `therapist_notes` table. -/
structure NoteRow where
  id : Nat
  date : String
  notes : Token
deriving DecidableEq

/-- The four tables created by the schema-initialization step of
`Database.__init__`, plus the AUTOINCREMENT counters SQLite keeps for the
three autoincremented tables.  `user_profile` rows are `(id, profile_data)`
pairs. -/
structure Store where
  user_profile : List (Nat × Token)
  journal_entries : List JournalRow
  journal_next_id : Nat
  therapy_sessions : List SessionRow
  session_next_id : Nat
  therapist_notes : List NoteRow
  note_next_id : Nat
deriving DecidableEq

/-- A freshly created store: all four tables empty, ids starting at 1
(SQLite AUTOINCREMENT starts at 1). -/
def emptyStore : Store :=
  { user_profile := []
    journal_entries := []
    journal_next_id := 1
    therapy_sessions := []
    session_next_id := 1
    therapist_notes := []
    note_next_id := 1 }

/-- The `Database` object: the derived key (with which the Fernet codec is
built) and the store it owns. -/
structure Database where
  key : String
  store : Store
deriving DecidableEq

/-- `Database.__init__` followed by the schema-creation step: derive the
key from the password, open the store file if it exists (`CREATE TABLE IF
NOT EXISTS` preserves existing tables) or start from an empty schema.  No
record is decrypted here, and no property of the password is checked. -/
def Database.init (password : String) (file : Option Store) : Database :=
  { key := derive_key password
    store := file.getD emptyStore }

/-- `Database.encrypt`: encrypt a string under the store's key. -/
def Database.encrypt (db : Database) (data : String) : Token :=
  { key := db.key, plain := data }

/-- `Database.decrypt`: decrypt a token; fails with `decryptionError` when
the token was produced under a different key (Fernet authentication). -/
def Database.decrypt (db : Database) (t : Token) : Except DBError String :=
  if t.key = db.key then .ok t.plain else .error .decryptionError

/-! ### JSON serialization (modelled)

`save_user_profile` / `get_user_profile` serialize the profile mapping
with `json.dumps` / `json.loads`.  The profile is modelled as an
association list of string fields. -/

/-- Tag every character of a string and terminate with a sentinel, so that
arbitrary characters (including the sentinel) survive the round trip. -/
def encodeStrChars (s : List Char) : List Char :=
  s.flatMap (fun c => ['!', c]) ++ [';']

/-- Modelled from the spec: `json.dumps` (external `json` library), §6
"Session `session_data` and Profile payloads are JSON-serialized before
encryption".  Modelled as an injective serialization of the field map
into a single string. -/
def json_dumps (m : List (String × String)) : String :=
  ⟨m.flatMap (fun kv => encodeStrChars kv.1.data ++ encodeStrChars kv.2.data)⟩

/-- Decode one tagged string, returning it with the rest of the input. -/
def decodeStrAux (acc : List Char) : List Char → Option (List Char × List Char)
  | ';' :: rest => some (acc.reverse, rest)
  | '!' :: c :: rest => decodeStrAux (c :: acc) rest
  | _ => none

/-- Fuelled worker for `json_loads`. -/
def json_loadsAux : List Char → Nat → Option (List (String × String))
  | [], _ => some []
  | _, 0 => none
  | l, fuel + 1 =>
      match decodeStrAux [] l with
      | none => none
      | some (k, r₁) =>
          match decodeStrAux [] r₁ with
          | none => none
          | some (v, r₂) =>
              match json_loadsAux r₂ fuel with
              | none => none
              | some rest => some ((⟨k⟩, ⟨v⟩) :: rest)

/-- Modelled from the spec: `json.loads` (external `json` library), the
inverse of `json_dumps`. -/
def json_loads (s : String) : Option (List (String × String)) :=
  json_loadsAux s.data s.data.length

/-! ### Profile operations -/

/-- `Database.save_user_profile`: serialize and encrypt the profile map;
`INSERT` a row with id 1 if the table is empty (`COUNT(*) = 0`),
otherwise `UPDATE` the row with id 1. -/
def Database.save_user_profile (db : Database) (profile_data : List (String × String)) :
    Database :=
  let encrypted_data := db.encrypt (json_dumps profile_data)
  let table :=
    if db.store.user_profile.length = 0 then
      db.store.user_profile ++ [(1, encrypted_data)]
    else
      db.store.user_profile.map (fun r => if r.1 = 1 then (1, encrypted_data) else r)
  { db with store := { db.store with user_profile := table } }

/-- `Database.get_user_profile`: `SELECT profile_data FROM user_profile
WHERE id = 1`; empty map if absent, otherwise decrypt and deserialize. -/
def Database.get_user_profile (db : Database) :
    Except DBError (List (String × String)) :=
  match db.store.user_profile.find? (fun r => r.1 = 1) with
  | none => .ok []
  | some r =>
      match db.decrypt r.2 with
      | .error e => .error e
      | .ok json_data =>
          match json_loads json_data with
          | some m => .ok m
          | none => .error .jsonDecodeError

/-! ### Journal operations

Dates are stored as TEXT; SQLite's `date >= ?` / `date <= ?` / `ORDER BY
date DESC` compare TEXT with the BINARY collation (byte-wise memcmp),
which on the ASCII ISO-8601 strings used here coincides with Lean's
code-point-lexicographic `String` order. -/

/-- `Database.add_journal_entry`: encrypt the text and `INSERT` a fresh
row (the caller-supplied ISO timestamp; `is_condensed` defaults to 0).
The source defaults `date` to `datetime.now().isoformat()` when absent;
the model takes the timestamp explicitly. -/
def Database.add_journal_entry (db : Database) (entry : String) (date : String) :
    Database :=
  { db with store :=
      { db.store with
        journal_entries := db.store.journal_entries ++
          [{ id := db.store.journal_next_id
             date := date
             entry := db.encrypt entry
             is_condensed := false }]
        journal_next_id := db.store.journal_next_id + 1 } }

/-- Byte-wise (code-point lexicographic) strict comparison of TEXT
values, as SQLite's BINARY collation performs it on the pure-ASCII
ISO-8601 strings stored here. -/
def strLtb : List Char → List Char → Bool
  | [], [] => false
  | [], _ :: _ => true
  | _ :: _, [] => false
  | a :: as, b :: bs =>
      if a < b then true
      else if b < a then false
      else strLtb as bs

/-- `a <= b` under the BINARY collation. -/
def strLeb (a b : String) : Bool := ! strLtb b.data a.data

/-- The WHERE clause built by `get_journal_entries`:
`date >= start` (when given) and `date <= end` (when given). -/
def matchesRange (start_date end_date : Option String) (date : String) : Bool :=
  (match start_date with
   | some a => strLeb a date
   | none => true) &&
  (match end_date with
   | some b => strLeb date b
   | none => true)

/-- `ORDER BY date DESC`: row `a` may precede row `b` when `b.date ≤ a.date`. -/
def rowDesc (a b : JournalRow) : Prop := strLeb b.date a.date = true

instance : DecidableRel rowDesc :=
  fun a b => inferInstanceAs (Decidable (strLeb b.date a.date = true))

/-- A decrypted journal entry as returned to the caller. -/
structure Entry where
  id : Nat
  date : String
  entry : String
  is_condensed : Bool
deriving DecidableEq

/-- Decrypt one fetched row into the caller-facing record. -/
def Database.toEntry (db : Database) (r : JournalRow) : Except DBError Entry :=
  match db.decrypt r.entry with
  | .error e => .error e
  | .ok text => .ok { id := r.id, date := r.date, entry := text, is_condensed := r.is_condensed }

/-- `Database.get_journal_entries`: filter by the optional date range,
sort by date descending, and decrypt each row; a row that fails
decryption aborts the whole call. -/
def Database.get_journal_entries (db : Database)
    (start_date end_date : Option String) : Except DBError (List Entry) :=
  let rows := db.store.journal_entries.filter
    (fun r => matchesRange start_date end_date r.date)
  (List.insertionSort rowDesc rows).mapM db.toEntry

/-! ### Calendar arithmetic and ISO-8601 formatting

`condense_journal_entries` computes its month range with
`datetime.datetime` arithmetic; the model mirrors it on a structured
naive datetime. -/

/-- A naive `datetime.datetime` value. -/
structure DateTime where
  year : Nat
  month : Nat
  day : Nat
  hour : Nat
  minute : Nat
  second : Nat
  microsecond : Nat
deriving DecidableEq

/-- The Gregorian leap-year rule used by `datetime`. -/
def isLeap (y : Nat) : Bool :=
  y % 4 == 0 && (y % 100 != 0 || y % 400 == 0)

/-- Number of days in a calendar month, as in `datetime`'s calendar. -/
def daysInMonth (year month : Nat) : Nat :=
  match month with
  | 2 => if isLeap year then 29 else 28
  | 4 | 6 | 9 | 11 => 30
  | _ => 31

/-- The fields of a representable `datetime.datetime`. -/
def DateTime.Valid (d : DateTime) : Prop :=
  1 ≤ d.year ∧ d.year ≤ 9999 ∧
  1 ≤ d.month ∧ d.month ≤ 12 ∧
  1 ≤ d.day ∧ d.day ≤ daysInMonth d.year d.month ∧
  d.hour ≤ 23 ∧ d.minute ≤ 59 ∧ d.second ≤ 59 ∧ d.microsecond < 1000000

instance (d : DateTime) : Decidable d.Valid := by
  unfold DateTime.Valid
  infer_instance

/-- Chronological position of a naive datetime: the field tuple packed
with radices exceeding each field's bound, so that for valid datetimes
`toKey` order is exactly chronological (field-lexicographic) order. -/
def DateTime.toKey (d : DateTime) : Nat :=
  ((((((d.year * 13 + d.month) * 32 + d.day) * 24 + d.hour) * 60 +
      d.minute) * 60 + d.second)) * 1000000 + d.microsecond

/-- The next calendar day (time fields untouched): models adding one day
with `datetime.timedelta`. -/
def nextDay (d : DateTime) : DateTime :=
  if d.day < daysInMonth d.year d.month then { d with day := d.day + 1 }
  else if d.month < 12 then { d with month := d.month + 1, day := 1 }
  else { d with year := d.year + 1, month := 1, day := 1 }

/-- `d + datetime.timedelta(days := n)` for whole-day offsets. -/
def addDays (d : DateTime) : Nat → DateTime
  | 0 => d
  | n + 1 => addDays (nextDay d) n

/-- `d - datetime.timedelta(microseconds := 1)`: borrow down through the
time fields, then into the previous day / month / year. -/
def predMicro (d : DateTime) : DateTime :=
  if 0 < d.microsecond then { d with microsecond := d.microsecond - 1 }
  else if 0 < d.second then { d with second := d.second - 1, microsecond := 999999 }
  else if 0 < d.minute then
    { d with minute := d.minute - 1, second := 59, microsecond := 999999 }
  else if 0 < d.hour then
    { d with hour := d.hour - 1, minute := 59, second := 59, microsecond := 999999 }
  else if 1 < d.day then
    { d with day := d.day - 1, hour := 23, minute := 59, second := 59,
             microsecond := 999999 }
  else if 1 < d.month then
    { d with month := d.month - 1, day := daysInMonth d.year (d.month - 1),
             hour := 23, minute := 59, second := 59, microsecond := 999999 }
  else
    { year := d.year - 1, month := 12, day := 31, hour := 23, minute := 59,
      second := 59, microsecond := 999999 }

/-- `n` rendered as exactly `w` decimal digits (leading zeros), most
significant digit first; agrees with Python's zero-padded fields for
`n < 10 ^ w`. -/
def padNum : Nat → Nat → List Char
  | 0, _ => []
  | w + 1, n => Char.ofNat (48 + n / 10 ^ w % 10) :: padNum w (n % 10 ^ w)

/-- The fractional-seconds part of `datetime.isoformat()`: omitted when
the microsecond field is zero, else `.` followed by six digits. -/
def microTail (micro : Nat) : List Char :=
  if micro = 0 then [] else '.' :: padNum 6 micro

/-- The characters of `datetime.isoformat()`:
`YYYY-MM-DDTHH:MM:SS[.ffffff]`. -/
def isoChars (d : DateTime) : List Char :=
  padNum 4 d.year ++ '-' ::
    (padNum 2 d.month ++ '-' ::
      (padNum 2 d.day ++ 'T' ::
        (padNum 2 d.hour ++ ':' ::
          (padNum 2 d.minute ++ ':' ::
            (padNum 2 d.second ++ microTail d.microsecond)))))

/-- `datetime.isoformat()`. -/
def isoformat (d : DateTime) : String := ⟨isoChars d⟩

/-! ### Condensation -/

/-- `datetime.strftime('%B')`. -/
def monthName (month : Nat) : String :=
  match month with
  | 1 => "January"
  | 2 => "February"
  | 3 => "March"
  | 4 => "April"
  | 5 => "May"
  | 6 => "June"
  | 7 => "July"
  | 8 => "August"
  | 9 => "September"
  | 10 => "October"
  | 11 => "November"
  | 12 => "December"
  | _ => ""

/-- `target_month = datetime.datetime(year, month, 1)`: the start of the
range condensed by `condense_journal_entries`. -/
def condense_start (month year : Nat) : DateTime :=
  { year := year, month := month, day := 1
    hour := 0, minute := 0, second := 0, microsecond := 0 }

/-- The end of the condensed range, exactly as computed in the source:
`(target.replace(day=28) + timedelta(days=4)).replace(day=1, hour=0,
minute=0, second=0, microsecond=0) - timedelta(microseconds=1)`. -/
def condense_end (month year : Nat) : DateTime :=
  let jumped := addDays { condense_start month year with day := 28 } 4
  predMicro { jumped with day := 1, hour := 0, minute := 0, second := 0,
                          microsecond := 0 }

/-- The header plus per-entry blocks built by `condense_journal_entries`
(`strftime('%B %Y')` for the header; then `Date: {date}\n{entry}\n\n`
for each fetched entry in fetched order). -/
def condensed_text (month year : Nat) (entries : List Entry) : String :=
  entries.foldl
    (fun acc e => acc ++ "Date: " ++ e.date ++ "\n" ++ e.entry ++ "\n\n")
    ("Condensed journal entries for " ++ monthName month ++ " " ++
      toString year ++ ":\n\n")

/-- The summary row `condense_journal_entries` inserts:
`INSERT INTO journal_entries (date, entry, is_condensed) VALUES
(target_month.isoformat(), E(condensed_text), 1)`. -/
def condense_summary_row (db : Database) (month year : Nat)
    (entries : List Entry) : JournalRow :=
  { id := db.store.journal_next_id
    date := isoformat (condense_start month year)
    entry := db.encrypt (condensed_text month year entries)
    is_condensed := true }

/-- `Database.condense_journal_entries`: fetch the month's entries
(condensed or not), no-op when none, otherwise insert the summary row and
delete each fetched entry by id, committing at the end. -/
def Database.condense_journal_entries (db : Database) (month year : Nat) :
    Except DBError Database :=
  let start_date := isoformat (condense_start month year)
  let end_date := isoformat (condense_end month year)
  match db.get_journal_entries (some start_date) (some end_date) with
  | .error e => .error e
  | .ok entries =>
      if entries.isEmpty then .ok db
      else
        let inserted := db.store.journal_entries ++
          [condense_summary_row db month year entries]
        let afterDelete := entries.foldl
          (fun rows e => rows.filter (fun r => r.id ≠ e.id)) inserted
        .ok { db with store :=
          { db.store with
            journal_entries := afterDelete
            journal_next_id := db.store.journal_next_id + 1 } }

/-! ### Write-ahead view of condensation (transaction semantics)

Between its two `cursor.execute` groups and the final
`connection.commit()`, `condense_journal_entries` runs inside one SQLite
transaction.  Modelled from the spec (§4.4 step 7, §5): writes go to a
working copy of the store; `commit` publishes the working copy; a failure
or abort at any point discards the working copy and a subsequent reader
sees the last committed state. -/

/-- One primitive statement executed by `condense_journal_entries` after
the fetch: the summary `INSERT`, a per-id `DELETE`, or the final
`connection.commit()`. -/
inductive JStep where
  | ins (row : JournalRow)
  | del (id : Nat)
  | commit
deriving DecidableEq

/-- Effect of a non-commit statement on a store. -/
def applyJStepStore (st : Store) : JStep → Store
  | .ins row =>
      { st with journal_entries := st.journal_entries ++ [row]
                journal_next_id := st.journal_next_id + 1 }
  | .del id =>
      { st with journal_entries :=
          st.journal_entries.filter (fun r => r.id ≠ id) }
  | .commit => st

/-- An open connection: the durable committed state and the in-flight
working state of the current transaction. -/
structure Conn where
  committed : Store
  working : Store
deriving DecidableEq

/-- Execute one statement: writes touch only the working state; `commit`
publishes it. -/
def execStep (c : Conn) : JStep → Conn
  | .ins row => { c with working := applyJStepStore c.working (.ins row) }
  | .del id => { c with working := applyJStepStore c.working (.del id) }
  | .commit => { c with committed := c.working }

/-- The statement sequence `condense_journal_entries` issues after the
fetch: nothing when the fetch is empty, otherwise the summary insert,
the per-id deletes in fetched order, and one final commit. -/
def condense_steps (db : Database) (month year : Nat) :
    Except DBError (List JStep) :=
  let start_date := isoformat (condense_start month year)
  let end_date := isoformat (condense_end month year)
  match db.get_journal_entries (some start_date) (some end_date) with
  | .error e => .error e
  | .ok entries =>
      if entries.isEmpty then .ok []
      else .ok (.ins (condense_summary_row db month year entries) ::
        (entries.map (fun e => JStep.del e.id) ++ [.commit]))

/-- The store a subsequent reader sees when the operation is aborted
after its first `k` statements: the transaction is rolled back, leaving
the committed state reached so far. -/
def condense_visible (db : Database) (steps : List JStep) (k : Nat) : Store :=
  ((steps.take k).foldl execStep { committed := db.store, working := db.store }).committed

/-- Invariants SQLite maintains for `journal_entries`: row ids are unique,
and every id is below the AUTOINCREMENT counter. -/
def Store.WF (st : Store) : Prop :=
  (st.journal_entries.map (fun r => r.id)).Nodup ∧
  ∀ r ∈ st.journal_entries, r.id < st.journal_next_id

instance (st : Store) : Decidable st.WF := by
  unfold Store.WF
  infer_instance

/-! ### A concrete scenario

Five journal entries, all dated inside May 2023, matching the spec's
condensation test vector. -/

/-- The store of `tests/test_models.py::test_condense_journal_entries`:
five entries dated May 1–5, 2023, added under password `test_password`. -/
def db5 : Database :=
  (((((Database.init "test_password" none).add_journal_entry
      "Test entry for day 1" "2023-05-01T00:00:00").add_journal_entry
      "Test entry for day 2" "2023-05-02T00:00:00").add_journal_entry
      "Test entry for day 3" "2023-05-03T00:00:00").add_journal_entry
      "Test entry for day 4" "2023-05-04T00:00:00").add_journal_entry
      "Test entry for day 5" "2023-05-05T00:00:00"

/-- The state after condensing May 2023 once in `db5`. -/
def db5c : Database :=
  (db5.condense_journal_entries 5 2023).toOption.getD db5

/-- The state after condensing May 2023 a second time. -/
def db5cc : Database :=
  (db5c.condense_journal_entries 5 2023).toOption.getD db5c

/-! ## Supporting lemmas -/

/-- Cons-cons case of lexicographic list comparison. -/
theorem lexConsIff {α : Type} {r : α → α → Prop} {a b : α} {l₁ l₂ : List α} :
    List.Lex r (a :: l₁) (b :: l₂) ↔ r a b ∨ (a = b ∧ List.Lex r l₁ l₂) := by
  constructor
  · intro h
    cases h with
    | rel h => exact Or.inl h
    | cons h => exact Or.inr ⟨rfl, h⟩
  · rintro (h | ⟨rfl, h⟩)
    · exact .rel h
    · exact .cons h

/-- The executable BINARY-collation comparison agrees with lexicographic
comparison of the character lists. -/
theorem strLtb_iff_lex :
    ∀ x y : List Char, strLtb x y = true ↔ List.Lex (· < ·) x y := by
  intro x
  induction x with
  | nil =>
      intro y
      cases y with
      | nil => simp [strLtb, List.Lex.not_nil_right]
      | cons b bs => simp [strLtb, List.Lex.nil]
  | cons a as ih =>
      intro y
      cases y with
      | nil => simp [strLtb, List.Lex.not_nil_right]
      | cons b bs =>
          rcases lt_trichotomy a b with hab | hab | hab
          · simp [strLtb, hab, lexConsIff]
          · subst hab
            simp [strLtb, lt_irrefl, lexConsIff, ih bs]
          · have h1 : ¬ a < b := not_lt_of_gt hab
            have h2 : a ≠ b := ne_of_gt hab
            simp [strLtb, h1, hab, lexConsIff, h2]

/-- The executable BINARY-collation comparison agrees with the
lexicographic `String` order. -/
theorem strLeb_iff_le (a b : String) : strLeb a b = true ↔ a ≤ b := by
  have hlt : strLtb b.data a.data = true ↔ b < a := by
    rw [strLtb_iff_lex, String.lt_iff_toList_lt]
    exact Eq.to_iff rfl
  constructor
  · intro h
    have : ¬ b < a := by
      rw [← hlt]
      simp [strLeb] at h
      simp [h]
    exact not_lt.mp this
  · intro h
    have : strLtb b.data a.data = false := by
      rw [← Bool.not_eq_true, hlt]
      exact not_lt.mpr h
    simp [strLeb, this]

instance : IsTotal JournalRow rowDesc :=
  ⟨fun a b => by
    unfold rowDesc
    rw [strLeb_iff_le, strLeb_iff_le]
    exact le_total b.date a.date⟩

instance : IsTrans JournalRow rowDesc :=
  ⟨fun a b c h h' => by
    unfold rowDesc at h h' ⊢
    rw [strLeb_iff_le] at h h' ⊢
    exact le_trans h' h⟩

/-- Distinct passwords derive distinct keys (the KDF model is injective
for the fixed salt). -/
theorem derive_key_injective {p₁ p₂ : String} (h : derive_key p₁ = derive_key p₂) :
    p₁ = p₂ := by
  have hd : (dr_claude_salt ++ ":" ++ p₁).data = (dr_claude_salt ++ ":" ++ p₂).data := by
    simpa [derive_key, pbkdf2_hmac_sha256] using congrArg String.data h
  rw [String.data_append, String.data_append, String.data_append,
      String.data_append, List.append_assoc, List.append_assoc] at hd
  exact String.ext (List.append_cancel_left (List.append_cancel_left hd))

theorem encodeStrChars_length (s : List Char) :
    (encodeStrChars s).length = 2 * s.length + 1 := by
  induction s with
  | nil => simp [encodeStrChars]
  | cons c cs ih =>
      have hcons : encodeStrChars (c :: cs) = '!' :: c :: encodeStrChars cs := by
        simp [encodeStrChars, List.flatMap_cons]
      rw [hcons, List.length_cons, List.length_cons, ih, List.length_cons]
      omega

theorem decodeStrAux_encode (s : List Char) :
    ∀ (acc t : List Char),
      decodeStrAux acc (s.flatMap (fun c => ['!', c]) ++ (';' :: t)) =
        some (acc.reverse ++ s, t) := by
  induction s with
  | nil => intro acc t; simp [decodeStrAux]
  | cons c cs ih =>
      intro acc t
      simp only [List.flatMap_cons, List.append_assoc, List.cons_append,
        List.nil_append]
      rw [decodeStrAux]
      simpa [List.append_assoc] using ih (c :: acc) t

theorem decodeStrAux_encodeStr (s : String) (t : List Char) :
    decodeStrAux [] (encodeStrChars s.data ++ t) = some (s.data, t) := by
  have := decodeStrAux_encode s.data [] t
  simpa [encodeStrChars, List.append_assoc] using this

theorem json_loadsAux_ne_nil (l : List Char) (hl : l ≠ []) (fuel : Nat) :
    json_loadsAux l (fuel + 1) =
      match decodeStrAux [] l with
      | none => none
      | some (k, r₁) =>
          match decodeStrAux [] r₁ with
          | none => none
          | some (v, r₂) =>
              match json_loadsAux r₂ fuel with
              | none => none
              | some rest => some ((⟨k⟩, ⟨v⟩) :: rest) := by
  obtain ⟨c, cs, rfl⟩ := List.exists_cons_of_ne_nil hl
  rfl

theorem json_loadsAux_dumps (m : List (String × String)) :
    ∀ fuel : Nat, (json_dumps m).data.length ≤ fuel →
      json_loadsAux (json_dumps m).data fuel = some m := by
  induction m with
  | nil => intro fuel _; simp [json_dumps, json_loadsAux]
  | cons kv m ih =>
      intro fuel hfuel
      obtain ⟨k, v⟩ := kv
      have hdata : (json_dumps ((k, v) :: m)).data =
          encodeStrChars k.data ++ (encodeStrChars v.data ++ (json_dumps m).data) := by
        simp [json_dumps, List.append_assoc]
      rw [hdata] at hfuel ⊢
      have hk := encodeStrChars_length k.data
      have hv := encodeStrChars_length v.data
      rw [List.length_append, List.length_append] at hfuel
      have hne : encodeStrChars k.data ++
          (encodeStrChars v.data ++ (json_dumps m).data) ≠ [] := by
        intro h
        have h0 := congrArg List.length h
        rw [List.length_append, List.length_append, List.length_nil] at h0
        omega
      cases fuel with
      | zero => omega
      | succ fuel =>
          have hlen : (json_dumps m).data.length ≤ fuel := by omega
          rw [json_loadsAux_ne_nil _ hne fuel]
          simp only [decodeStrAux_encodeStr k
              (encodeStrChars v.data ++ (json_dumps m).data),
            decodeStrAux_encodeStr v ((json_dumps m).data),
            ih fuel hlen]

/-- `json_loads` inverts `json_dumps`. -/
theorem json_loads_dumps (m : List (String × String)) :
    json_loads (json_dumps m) = some m :=
  json_loadsAux_dumps m (json_dumps m).data.length le_rfl

/-! ## Claim theorems: cipher and key derivation -/

/-- C4: for every password and every plaintext string, decryption of the
encryption under the same derived key returns the plaintext (`decrypt ∘
encrypt` is the identity on plaintexts). -/
theorem decrypt_encrypt_roundtrip (password s : String) (file : Option Store) :
    (Database.init password file).decrypt ((Database.init password file).encrypt s) =
      .ok s := by
  simp [Database.decrypt, Database.encrypt]

/-- C5: decrypting, under the key derived from `p₂`, a token produced by
`encrypt` under the key derived from `p₁ ≠ p₂` always fails with a
DecryptionError, never returning a plaintext. -/
theorem decrypt_wrong_password_fails (p₁ p₂ s : String) (f₁ f₂ : Option Store)
    (h : p₁ ≠ p₂) :
    (Database.init p₂ f₂).decrypt ((Database.init p₁ f₁).encrypt s) =
      .error .decryptionError := by
  have hk : derive_key p₁ ≠ derive_key p₂ := fun hk => h (derive_key_injective hk)
  simp [Database.decrypt, Database.encrypt, Database.init, hk]

/-- C5 witness: concrete distinct passwords. -/
theorem decrypt_wrong_password_fails_witness :
    "alpha" ≠ "beta" ∧
    (Database.init "beta" none).decrypt
        ((Database.init "alpha" none).encrypt "a secret") =
      .error .decryptionError :=
  ⟨by decide, decrypt_wrong_password_fails "alpha" "beta" "a secret" none none
      (by decide)⟩

/-- C9: key derivation is deterministic: two calls with the same password
yield identical keys, and the salt is the fixed constant
`dr_claude_salt` (no randomness enters the derivation). -/
theorem derive_key_deterministic (p₁ p₂ : String) (h : p₁ = p₂) :
    derive_key p₁ = derive_key p₂ ∧
    derive_key p₁ = pbkdf2_hmac_sha256 dr_claude_salt p₁ :=
  ⟨by rw [h], rfl⟩

/-- C9 witness: two calls at a concrete password. -/
theorem derive_key_deterministic_witness :
    derive_key "hunter2" = derive_key "hunter2" ∧
    derive_key "hunter2" = pbkdf2_hmac_sha256 dr_claude_salt "hunter2" :=
  derive_key_deterministic "hunter2" "hunter2" rfl

/-- C8: opening the store never checks the password: with any password the
constructor succeeds and leaves the stored tables untouched (no record is
decrypted), and a wrong password surfaces only as a DecryptionError on
the first read of an encrypted record. -/
theorem open_unconditional_wrong_password_surfaces_on_read
    (p₁ p₂ s : String) (st : Store)
    (hne : p₁ ≠ p₂)
    (hprof : st.user_profile = [(1, { key := derive_key p₁, plain := s })]) :
    (∀ q : String, (Database.init q (some st)).store = st) ∧
    (Database.init p₂ (some st)).get_user_profile = .error .decryptionError := by
  have hk : derive_key p₁ ≠ derive_key p₂ := fun hk => hne (derive_key_injective hk)
  refine ⟨fun q => rfl, ?_⟩
  simp [Database.get_user_profile, Database.init, Database.decrypt, hprof,
    List.find?, hk]

/-- C8 witness: a store holding a profile encrypted under one password,
opened with another. -/
theorem open_unconditional_witness :
    "right horse" ≠ "wrong horse" ∧
    (∀ q : String,
      (Database.init q (some { emptyStore with user_profile :=
        [(1, { key := derive_key "right horse", plain := "secret" })] })).store =
        { emptyStore with user_profile :=
          [(1, { key := derive_key "right horse", plain := "secret" })] }) ∧
    (Database.init "wrong horse" (some { emptyStore with user_profile :=
        [(1, { key := derive_key "right horse", plain := "secret" })] })).get_user_profile =
      .error .decryptionError := by
  have h := open_unconditional_wrong_password_surfaces_on_read
    "right horse" "wrong horse" "secret"
    { emptyStore with user_profile :=
      [(1, { key := derive_key "right horse", plain := "secret" })] }
    (by decide) rfl
  exact ⟨by decide, h.1, h.2⟩

/-! ## Claim theorem: profile upsert -/

/-- C7: saving a profile map twice (from any reachable profile-table
state: empty, or the single row with id 1) leaves exactly one stored row
after each call, and reading the profile back returns the saved map. -/
theorem save_user_profile_upsert (m : List (String × String)) (db : Database)
    (h : db.store.user_profile = [] ∨ ∃ t, db.store.user_profile = [(1, t)]) :
    ((db.save_user_profile m).save_user_profile m).get_user_profile = .ok m ∧
    (db.save_user_profile m).store.user_profile.length = 1 ∧
    ((db.save_user_profile m).save_user_profile m).store.user_profile.length = 1 := by
  obtain h | ⟨t, h⟩ := h <;>
    simp [Database.save_user_profile, Database.get_user_profile,
      Database.decrypt, Database.encrypt, h, List.find?, json_loads_dumps]

/-- C7 witness: a concrete map saved twice into a fresh store. -/
theorem save_user_profile_upsert_witness :
    (((Database.init "pw" none).save_user_profile
        [("name", "Test User"), ("age", "30")]).save_user_profile
        [("name", "Test User"), ("age", "30")]).get_user_profile =
      .ok [("name", "Test User"), ("age", "30")] ∧
    ((Database.init "pw" none).save_user_profile
        [("name", "Test User"), ("age", "30")]).store.user_profile.length = 1 ∧
    (((Database.init "pw" none).save_user_profile
        [("name", "Test User"), ("age", "30")]).save_user_profile
        [("name", "Test User"), ("age", "30")]).store.user_profile.length = 1 :=
  save_user_profile_upsert [("name", "Test User"), ("age", "30")]
    (Database.init "pw" none) (Or.inl rfl)

/-! ## Claim theorem: condensation at the spec's test vector -/

set_option maxRecDepth 8000

/-- C1: on the store holding exactly the 5 May-2023 entries, the first
`condense_journal_entries(5, 2023)` leaves exactly one entry, marked
`is_condensed`, whose text contains every original entry's text — but the
second call is NOT a no-op: because the fetch takes all rows in the month
range without consulting `is_condensed`, it re-condenses the summary
(whose timestamp, the first instant of the month, lies inside the range)
into a fresh row with a new id and re-wrapped text. -/
theorem condense_second_call_not_noop :
    db5.condense_journal_entries 5 2023 = .ok db5c ∧
    db5c.store.journal_entries.length = 1 ∧
    (∀ r ∈ db5c.store.journal_entries, r.is_condensed = true ∧
      "Test entry for day 1".data <:+: r.entry.plain.data ∧
      "Test entry for day 2".data <:+: r.entry.plain.data ∧
      "Test entry for day 3".data <:+: r.entry.plain.data ∧
      "Test entry for day 4".data <:+: r.entry.plain.data ∧
      "Test entry for day 5".data <:+: r.entry.plain.data) ∧
    db5c.condense_journal_entries 5 2023 = .ok db5cc ∧
    db5cc.store.journal_entries.length = 1 ∧
    db5cc.store.journal_entries ≠ db5c.store.journal_entries :=
  ⟨rfl, by decide, by decide, rfl, by decide, by decide⟩

/-! ## Claim theorem: the frame of condensation -/

/-- Decryption into caller records preserves each fetched row's id and
date (and their order). -/
theorem mapM_toEntry_fields (db : Database) :
    ∀ (rows : List JournalRow) (out : List Entry),
      rows.mapM db.toEntry = .ok out →
      out.map (fun e => e.id) = rows.map (fun r => r.id) ∧
      out.map (fun e => e.date) = rows.map (fun r => r.date) := by
  intro rows
  induction rows with
  | nil =>
      intro out h
      simp only [List.mapM_nil, pure, Except.pure] at h
      cases h
      simp
  | cons r rs ih =>
      intro out h
      rw [List.mapM_cons] at h
      cases he : db.toEntry r with
      | error e => rw [he] at h; simp [Bind.bind, Except.bind] at h
      | ok entry =>
          rw [he] at h
          cases hrest : rs.mapM db.toEntry with
          | error e =>
              rw [hrest] at h
              simp [Bind.bind, Except.bind] at h
          | ok out' =>
              rw [hrest] at h
              simp only [Bind.bind, Except.bind, pure, Except.pure] at h
              cases h
              have hid : entry.id = r.id ∧ entry.date = r.date := by
                unfold Database.toEntry at he
                cases hd : db.decrypt r.entry with
                | error e => rw [hd] at he; cases he
                | ok text => rw [hd] at he; cases he; exact ⟨rfl, rfl⟩
              obtain ⟨ih1, ih2⟩ := ih out' hrest
              simp [hid.1, hid.2, ih1, ih2]

/-- A row whose id is hit by none of the deletes survives the per-id
delete loop of `condense_journal_entries`. -/
theorem mem_foldl_filter (entries : List Entry) :
    ∀ (rows : List JournalRow) (r : JournalRow), r ∈ rows →
      (∀ e ∈ entries, r.id ≠ e.id) →
      r ∈ entries.foldl (fun rows e => rows.filter (fun x => x.id ≠ e.id)) rows := by
  induction entries with
  | nil => intro rows r hr _; exact hr
  | cons e es ih =>
      intro rows r hr hne
      rw [List.foldl_cons]
      apply ih
      · rw [List.mem_filter]
        exact ⟨hr, by simpa using hne e (List.mem_cons_self e es)⟩
      · intro e' he'
        exact hne e' (List.mem_cons_of_mem e he')

/-- Every id fetched for condensation is the id of a stored row inside
the month's date range. -/
theorem fetched_id_in_range (db : Database) (startStr endStr : String)
    (entries : List Entry)
    (hget : db.get_journal_entries (some startStr) (some endStr) = .ok entries) :
    ∀ e ∈ entries, ∃ r' ∈ db.store.journal_entries,
      r'.id = e.id ∧ matchesRange (some startStr) (some endStr) r'.date = true := by
  intro e he
  unfold Database.get_journal_entries at hget
  obtain ⟨hid, _⟩ := mapM_toEntry_fields db _ _ hget
  have : e.id ∈ (List.insertionSort rowDesc
      (db.store.journal_entries.filter
        (fun r => matchesRange (some startStr) (some endStr) r.date))).map
        (fun r => r.id) := by
    rw [← hid]
    exact List.mem_map_of_mem _ he
  obtain ⟨r', hr', hrid⟩ := List.mem_map.mp this
  have hr'mem : r' ∈ db.store.journal_entries.filter
      (fun r => matchesRange (some startStr) (some endStr) r.date) :=
    (List.perm_insertionSort rowDesc _).mem_iff.mp hr'
  rw [List.mem_filter] at hr'mem
  exact ⟨r', hr'mem.1, hrid, hr'mem.2⟩

/-- C10: `condense_journal_entries(month, year)` touches only journal
entries dated inside the target month's range: every journal row dated
outside the range survives unchanged (same id, timestamp, ciphertext and
flag), and the profile, session and note tables are untouched. -/
theorem condense_frame (db : Database) (month year : Nat) (res : Database)
    (hwf : db.store.WF)
    (hok : db.condense_journal_entries month year = .ok res) :
    (∀ r ∈ db.store.journal_entries,
      matchesRange (some (isoformat (condense_start month year)))
        (some (isoformat (condense_end month year))) r.date = false →
      r ∈ res.store.journal_entries) ∧
    res.store.user_profile = db.store.user_profile ∧
    res.store.therapy_sessions = db.store.therapy_sessions ∧
    res.store.therapist_notes = db.store.therapist_notes := by
  cases hget : db.get_journal_entries
      (some (isoformat (condense_start month year)))
      (some (isoformat (condense_end month year))) with
  | error e =>
      unfold Database.condense_journal_entries at hok
      simp only [hget] at hok
      cases hok
  | ok entries =>
      unfold Database.condense_journal_entries at hok
      simp only [hget] at hok
      by_cases hemp : entries.isEmpty
      · rw [if_pos hemp] at hok
        cases hok
        exact ⟨fun r hr _ => hr, rfl, rfl, rfl⟩
      · rw [if_neg hemp] at hok
        cases hok
        refine ⟨?_, rfl, rfl, rfl⟩
        intro r hr hout
        apply mem_foldl_filter
        · exact List.mem_append_left _ hr
        · intro e he
          intro heq
          obtain ⟨r', hr'mem, hr'id, hr'range⟩ :=
            fetched_id_in_range db _ _ entries hget e he
          have : r = r' :=
            List.inj_on_of_nodup_map hwf.1 hr hr'mem (by rw [heq, hr'id])
          rw [this, hr'range] at hout
          cases hout

/-- C10 witness: the five-entry May-2023 store. -/
theorem condense_frame_witness :
    (∀ r ∈ db5.store.journal_entries,
      matchesRange (some (isoformat (condense_start 5 2023)))
        (some (isoformat (condense_end 5 2023))) r.date = false →
      r ∈ db5c.store.journal_entries) ∧
    db5c.store.user_profile = db5.store.user_profile ∧
    db5c.store.therapy_sessions = db5.store.therapy_sessions ∧
    db5c.store.therapist_notes = db5.store.therapist_notes :=
  condense_frame db5 5 2023 db5c (by decide) rfl

/-! ## Claim theorem: atomicity of condensation -/

/-- Statements other than `commit` never change the committed state. -/
theorem foldl_execStep_committed (l : List JStep) :
    ∀ c : Conn, (∀ s ∈ l, s ≠ JStep.commit) →
      (l.foldl execStep c).committed = c.committed := by
  induction l with
  | nil => intro c _; rfl
  | cons s ss ih =>
      intro c h
      rw [List.foldl_cons]
      rw [ih _ (fun s' hs' => h s' (List.mem_cons_of_mem s hs'))]
      cases s with
      | ins row => rfl
      | del id => rfl
      | commit => exact absurd rfl (h .commit (List.mem_cons_self _ _))

/-- The working state accumulates the statement effects. -/
theorem foldl_execStep_working (l : List JStep) :
    ∀ c : Conn, (l.foldl execStep c).working = l.foldl applyJStepStore c.working := by
  induction l with
  | nil => intro c; rfl
  | cons s ss ih =>
      intro c
      rw [List.foldl_cons, List.foldl_cons, ih]
      cases s with
      | ins row => rfl
      | del id => rfl
      | commit => rfl

/-- The per-id `DELETE` statements amount to the delete loop of
`condense_journal_entries` on the journal table. -/
theorem foldl_apply_del (entries : List Entry) :
    ∀ st : Store,
      (entries.map (fun e => JStep.del e.id)).foldl applyJStepStore st =
        { st with journal_entries :=
            entries.foldl (fun rows e => rows.filter (fun r => r.id ≠ e.id)) st.journal_entries } := by
  induction entries with
  | nil => intro st; rfl
  | cons e es ih =>
      intro st
      rw [List.map_cons, List.foldl_cons, List.foldl_cons]
      exact ih _

/-- C2: the summary insert and the per-id deletes of
`condense_journal_entries` form one transaction closed by the final
commit: aborting after any prefix of the statements leaves a subsequent
reader the original store (all originals present, no summary), and only
running the complete sequence — whose last statement is the sole commit —
publishes exactly the condensed store (summary present, originals gone).
Never a mixed state. -/
theorem condense_atomic (db : Database) (month year : Nat)
    (steps : List JStep) (k : Nat)
    (hsteps : condense_steps db month year = .ok steps) (hk : k ≤ steps.length) :
    condense_visible db steps k = db.store ∨
    (k = steps.length ∧
      ∀ res, db.condense_journal_entries month year = .ok res →
        condense_visible db steps k = res.store) := by
  cases hget : db.get_journal_entries
      (some (isoformat (condense_start month year)))
      (some (isoformat (condense_end month year))) with
  | error e =>
      unfold condense_steps at hsteps
      simp only [hget] at hsteps
      cases hsteps
  | ok entries =>
      unfold condense_steps at hsteps
      simp only [hget] at hsteps
      by_cases hemp : entries.isEmpty
      · rw [if_pos hemp] at hsteps
        cases hsteps
        left
        simp [condense_visible]
      · rw [if_neg hemp] at hsteps
        cases hsteps
        set pre : List JStep :=
          JStep.ins (condense_summary_row db month year entries) ::
            entries.map (fun e => JStep.del e.id) with hpre
        have hsplit : JStep.ins (condense_summary_row db month year entries) ::
            (entries.map (fun e => JStep.del e.id) ++ [JStep.commit]) =
            pre ++ [JStep.commit] := by
          rw [hpre, List.cons_append]
        have hnc : ∀ s ∈ pre, s ≠ JStep.commit := by
          intro s hs
          rw [hpre] at hs
          rcases List.mem_cons.mp hs with rfl | hs
          · intro h; cases h
          · obtain ⟨e, _, rfl⟩ := List.mem_map.mp hs
            intro h; cases h
        by_cases hlt : k < (JStep.ins (condense_summary_row db month year entries) ::
            (entries.map (fun e => JStep.del e.id) ++ [JStep.commit])).length
        · left
          have hkpre : k ≤ pre.length := by
            rw [hpre]
            simp only [List.length_cons, List.length_append, List.length_map,
              List.length_cons, List.length_nil] at hlt ⊢
            omega
          unfold condense_visible
          rw [hsplit, List.take_append_of_le_length hkpre]
          exact foldl_execStep_committed _ _
            (fun s hs => hnc s (List.mem_of_mem_take hs))
        · right
          have hkeq : k = (JStep.ins (condense_summary_row db month year entries) ::
              (entries.map (fun e => JStep.del e.id) ++ [JStep.commit])).length :=
            le_antisymm hk (not_lt.mp hlt)
          refine ⟨hkeq, ?_⟩
          intro res hres
          unfold Database.condense_journal_entries at hres
          simp only [hget] at hres
          rw [if_neg hemp] at hres
          cases hres
          unfold condense_visible
          rw [hkeq, List.take_length, hsplit, List.foldl_append,
            List.foldl_cons, List.foldl_nil]
          show (List.foldl execStep
              { committed := db.store, working := db.store } pre).working = _
          rw [foldl_execStep_working, hpre, List.foldl_cons, foldl_apply_del]
          rfl

/-- The statement sequence of condensing May 2023 in the five-entry
store. -/
def c2steps : List JStep := (condense_steps db5 5 2023).toOption.getD []

/-- C2 witness: aborting the concrete condensation after 3 of its 7
statements. -/
theorem condense_atomic_witness :
    condense_visible db5 c2steps 3 = db5.store ∨
    (3 = c2steps.length ∧
      ∀ res, db5.condense_journal_entries 5 2023 = .ok res →
        condense_visible db5 c2steps 3 = res.store) :=
  condense_atomic db5 5 2023 c2steps 3 rfl (by decide)

/-! ## ISO-8601 strings order chronologically

SQLite compares the stored TEXT timestamps byte-wise; the following
lemmas show that on `isoformat` output this is exactly chronological
order, which is what makes the date-range WHERE clauses and the
`ORDER BY date DESC` of the source correct. -/

/-- Digit characters compare like their digits. -/
theorem digitChar_lt_iff : ∀ a, a < 10 → ∀ b, b < 10 →
    (Char.ofNat (48 + a) < Char.ofNat (48 + b) ↔ a < b) := by decide

/-- Digit characters are distinct for distinct digits. -/
theorem digitChar_eq_iff : ∀ a, a < 10 → ∀ b, b < 10 →
    (Char.ofNat (48 + a) = Char.ofNat (48 + b) ↔ a = b) := by decide

/-- Positional comparison: with the low part bounded by the radix, the
high digit dominates. -/
theorem posBase_lt (p m₁ m₂ d₁ d₂ : Nat) (h₁ : m₁ < p) (h : d₁ < d₂) :
    m₁ + p * d₁ < m₂ + p * d₂ := by
  have h2 : p * d₁ + p ≤ p * d₂ := by
    have h3 : p * (d₁ + 1) ≤ p * d₂ := Nat.mul_le_mul_left p h
    calc p * d₁ + p = p * (d₁ + 1) := by ring
      _ ≤ p * d₂ := h3
  calc m₁ + p * d₁ < p + p * d₁ := Nat.add_lt_add_right h₁ (p * d₁)
    _ = p * d₁ + p := Nat.add_comm _ _
    _ ≤ p * d₂ := h2
    _ ≤ m₂ + p * d₂ := Nat.le_add_left _ _

theorem posBase_lt_iff (p m₁ m₂ d₁ d₂ : Nat) (h₁ : m₁ < p) (h₂ : m₂ < p) :
    m₁ + p * d₁ < m₂ + p * d₂ ↔ (d₁ < d₂ ∨ (d₁ = d₂ ∧ m₁ < m₂)) := by
  rcases lt_trichotomy d₁ d₂ with h | rfl | h
  · exact iff_of_true (posBase_lt p m₁ m₂ d₁ d₂ h₁ h) (Or.inl h)
  · rw [Nat.add_lt_add_iff_right]
    simp [lt_irrefl]
  · have hgt := posBase_lt p m₂ m₁ d₂ d₁ h₂ h
    constructor
    · intro hlt
      exact absurd (lt_trans hlt hgt) (lt_irrefl _)
    · rintro (h' | ⟨rfl, _⟩)
      · exact absurd (lt_trans h' h) (lt_irrefl _)
      · exact absurd h (lt_irrefl _)

theorem posBase_eq_iff (p m₁ m₂ d₁ d₂ : Nat) (h₁ : m₁ < p) (h₂ : m₂ < p) :
    m₁ + p * d₁ = m₂ + p * d₂ ↔ (d₁ = d₂ ∧ m₁ = m₂) := by
  rcases lt_trichotomy d₁ d₂ with h | rfl | h
  · have hlt := posBase_lt p m₁ m₂ d₁ d₂ h₁ h
    constructor
    · intro hEq
      exact absurd hEq (Nat.ne_of_lt hlt)
    · rintro ⟨rfl, _⟩
      exact absurd h (lt_irrefl _)
  · constructor
    · intro hEq
      exact ⟨rfl, Nat.add_right_cancel hEq⟩
    · rintro ⟨_, rfl⟩
      rfl
  · have hlt := posBase_lt p m₂ m₁ d₂ d₁ h₂ h
    constructor
    · intro hEq
      exact absurd hEq.symm (Nat.ne_of_lt hlt)
    · rintro ⟨rfl, _⟩
      exact absurd h (lt_irrefl _)

/-- Comparing two equal-width zero-padded numerals followed by
arbitrary tails: the numeric parts decide, ties fall to the tails. -/
theorem lex_padNum_append (w : Nat) :
    ∀ (n₁ n₂ : Nat) (r₁ r₂ : List Char),
      List.Lex (· < ·) (padNum w n₁ ++ r₁) (padNum w n₂ ++ r₂) ↔
        (n₁ % 10 ^ w < n₂ % 10 ^ w ∨
          (n₁ % 10 ^ w = n₂ % 10 ^ w ∧ List.Lex (· < ·) r₁ r₂)) := by
  induction w with
  | zero =>
      intro n₁ n₂ r₁ r₂
      simp [padNum, Nat.mod_one]
  | succ w ih =>
      intro n₁ n₂ r₁ r₂
      rw [padNum, padNum, List.cons_append, List.cons_append, lexConsIff]
      have hd₁ : n₁ / 10 ^ w % 10 < 10 := Nat.mod_lt _ (by norm_num)
      have hd₂ : n₂ / 10 ^ w % 10 < 10 := Nat.mod_lt _ (by norm_num)
      rw [digitChar_lt_iff _ hd₁ _ hd₂, digitChar_eq_iff _ hd₁ _ hd₂,
        ih (n₁ % 10 ^ w) (n₂ % 10 ^ w) r₁ r₂, Nat.mod_mod_of_dvd _ dvd_rfl,
        Nat.mod_mod_of_dvd _ dvd_rfl, Nat.mod_pow_succ, Nat.mod_pow_succ]
      have hp : (0 : Nat) < 10 ^ w := Nat.pos_pow_of_pos w (by norm_num)
      rw [posBase_lt_iff _ _ _ _ _ (Nat.mod_lt _ hp) (Nat.mod_lt _ hp),
        posBase_eq_iff _ _ _ _ _ (Nat.mod_lt _ hp) (Nat.mod_lt _ hp)]
      tauto

/-- The optional fractional-seconds tail orders like the microsecond
field. -/
theorem lex_microTail (μ₁ μ₂ : Nat) (h₁ : μ₁ < 1000000) (h₂ : μ₂ < 1000000) :
    (List.Lex (· < ·) (microTail μ₁) (microTail μ₂) ↔ μ₁ < μ₂) := by
  unfold microTail
  by_cases hz₁ : μ₁ = 0 <;> by_cases hz₂ : μ₂ = 0
  · subst hz₁; subst hz₂
    simp [List.Lex.not_nil_right]
  · subst hz₁
    simp [hz₂, List.Lex.nil, Nat.pos_of_ne_zero hz₂]
  · subst hz₂
    simp [hz₁, List.Lex.not_nil_right]
  · rw [if_neg hz₁, if_neg hz₂, lexConsIff]
    have hpad := lex_padNum_append 6 μ₁ μ₂ [] []
    rw [List.append_nil, List.append_nil, Nat.mod_eq_of_lt (by norm_num [h₁] : μ₁ < 10 ^ 6),
      Nat.mod_eq_of_lt (by norm_num [h₂] : μ₂ < 10 ^ 6)] at hpad
    rw [hpad]
    simp [lt_self_iff_false, List.Lex.not_nil_right]

theorem daysInMonth_pos (y m : Nat) : 1 ≤ daysInMonth y m := by
  unfold daysInMonth
  split
  · split <;> norm_num
  all_goals norm_num

theorem daysInMonth_le (y m : Nat) : daysInMonth y m ≤ 31 := by
  unfold daysInMonth
  split
  · split <;> norm_num
  all_goals norm_num

/-- Lexicographic comparison of `isoformat` character lists is
chronological comparison, for representable datetimes. -/
theorem isoChars_lex_iff (d₁ d₂ : DateTime) (v₁ : d₁.Valid) (v₂ : d₂.Valid) :
    (List.Lex (· < ·) (isoChars d₁) (isoChars d₂) ↔ d₁.toKey < d₂.toKey) := by
  obtain ⟨hy₁, hy₁b, hmo₁, hmo₁b, hda₁, hda₁b, hh₁, hmi₁, hs₁, hmu₁⟩ := v₁
  obtain ⟨hy₂, hy₂b, hmo₂, hmo₂b, hda₂, hda₂b, hh₂, hmi₂, hs₂, hmu₂⟩ := v₂
  have hda₁c : d₁.day ≤ 31 := le_trans hda₁b (daysInMonth_le _ _)
  have hda₂c : d₂.day ≤ 31 := le_trans hda₂b (daysInMonth_le _ _)
  have hY₁ : d₁.year % 10 ^ 4 = d₁.year := Nat.mod_eq_of_lt (by norm_num; omega)
  have hY₂ : d₂.year % 10 ^ 4 = d₂.year := Nat.mod_eq_of_lt (by norm_num; omega)
  have hMo₁ : d₁.month % 10 ^ 2 = d₁.month := Nat.mod_eq_of_lt (by norm_num; omega)
  have hMo₂ : d₂.month % 10 ^ 2 = d₂.month := Nat.mod_eq_of_lt (by norm_num; omega)
  have hDa₁ : d₁.day % 10 ^ 2 = d₁.day := Nat.mod_eq_of_lt (by norm_num; omega)
  have hDa₂ : d₂.day % 10 ^ 2 = d₂.day := Nat.mod_eq_of_lt (by norm_num; omega)
  have hH₁ : d₁.hour % 10 ^ 2 = d₁.hour := Nat.mod_eq_of_lt (by norm_num; omega)
  have hH₂ : d₂.hour % 10 ^ 2 = d₂.hour := Nat.mod_eq_of_lt (by norm_num; omega)
  have hMi₁ : d₁.minute % 10 ^ 2 = d₁.minute := Nat.mod_eq_of_lt (by norm_num; omega)
  have hMi₂ : d₂.minute % 10 ^ 2 = d₂.minute := Nat.mod_eq_of_lt (by norm_num; omega)
  have hS₁ : d₁.second % 10 ^ 2 = d₁.second := Nat.mod_eq_of_lt (by norm_num; omega)
  have hS₂ : d₂.second % 10 ^ 2 = d₂.second := Nat.mod_eq_of_lt (by norm_num; omega)
  unfold isoChars
  rw [lex_padNum_append, hY₁, hY₂, lexConsIff,
    lex_padNum_append, hMo₁, hMo₂, lexConsIff,
    lex_padNum_append, hDa₁, hDa₂, lexConsIff,
    lex_padNum_append, hH₁, hH₂, lexConsIff,
    lex_padNum_append, hMi₁, hMi₂, lexConsIff,
    lex_padNum_append, hS₁, hS₂, lex_microTail _ _ hmu₁ hmu₂]
  simp only [lt_self_iff_false, false_or, true_and]
  unfold DateTime.toKey
  omega

/-- `isoformat` strings order by `String` comparison exactly as the
datetimes order chronologically. -/
theorem isoformat_lt_iff (d₁ d₂ : DateTime) (v₁ : d₁.Valid) (v₂ : d₂.Valid) :
    (isoformat d₁ < isoformat d₂ ↔ d₁.toKey < d₂.toKey) := by
  rw [String.lt_iff_toList_lt]
  exact isoChars_lex_iff d₁ d₂ v₁ v₂

theorem isoformat_le_iff (d₁ d₂ : DateTime) (v₁ : d₁.Valid) (v₂ : d₂.Valid) :
    (isoformat d₁ ≤ isoformat d₂ ↔ d₁.toKey ≤ d₂.toKey) := by
  rw [← not_lt, ← not_lt (α := Nat)]
  exact not_congr (isoformat_lt_iff d₂ d₁ v₂ v₁)

/-- The executable collation agrees with chronological comparison on
`isoformat` strings. -/
theorem strLeb_isoformat (a b : DateTime) (va : a.Valid) (vb : b.Valid) :
    strLeb (isoformat a) (isoformat b) = decide (a.toKey ≤ b.toKey) := by
  by_cases h : a.toKey ≤ b.toKey
  · have hle := (strLeb_iff_le _ _).mpr ((isoformat_le_iff a b va vb).mpr h)
    simp [hle, h]
  · have hnle : ¬ (isoformat a ≤ isoformat b) :=
      fun hle => h ((isoformat_le_iff a b va vb).mp hle)
    have hfalse : strLeb (isoformat a) (isoformat b) = false := by
      cases hsb : strLeb (isoformat a) (isoformat b)
      · rfl
      · exact absurd ((strLeb_iff_le _ _).mp hsb) hnle
    simp [hfalse, h]

/-! ## Claim theorem: retrieval ordering -/

/-- C3: whatever the insertion order was, `get_journal_entries()` with no
date range returns the entries sorted by timestamp descending: adjacent
results compare `b.date ≤ a.date` under the store's collation, which on
ISO-8601 timestamps is chronological order (most recent first). -/
theorem get_journal_entries_sorted (db : Database) (l : List Entry)
    (h : db.get_journal_entries none none = .ok l) :
    l.Pairwise (fun a b => strLeb b.date a.date = true) ∧
    l.Pairwise (fun a b => ∀ d₁ d₂ : DateTime, d₁.Valid → d₂.Valid →
      a.date = isoformat d₁ → b.date = isoformat d₂ → d₂.toKey ≤ d₁.toKey) := by
  have hstr : l.Pairwise (fun a b => strLeb b.date a.date = true) := by
    unfold Database.get_journal_entries at h
    obtain ⟨_, hdates⟩ := mapM_toEntry_fields db _ _ h
    have hsorted := List.sorted_insertionSort rowDesc
      (db.store.journal_entries.filter
        (fun r => matchesRange none none r.date))
    have hmap : (List.insertionSort rowDesc
        (db.store.journal_entries.filter
          (fun r => matchesRange none none r.date))).map (fun r => r.date)
        |>.Pairwise (fun a b => strLeb b a = true) :=
      List.pairwise_map.mpr hsorted
    rw [← hdates] at hmap
    exact List.pairwise_map.mp hmap
  refine ⟨hstr, hstr.imp ?_⟩
  intro a b hab d₁ d₂ v₁ v₂ e₁ e₂
  rw [e₁, e₂] at hab
  exact (isoformat_le_iff d₂ d₁ v₂ v₁).mp ((strLeb_iff_le _ _).mp hab)

/-- The journal listing of the five-entry May-2023 store. -/
def c3list : List Entry := (db5.get_journal_entries none none).toOption.getD []

/-- C3 witness: the concrete five-entry store. -/
theorem get_journal_entries_sorted_witness :
    c3list.Pairwise (fun a b => strLeb b.date a.date = true) ∧
    c3list.Pairwise (fun a b => ∀ d₁ d₂ : DateTime, d₁.Valid → d₂.Valid →
      a.date = isoformat d₁ → b.date = isoformat d₂ → d₂.toKey ≤ d₁.toKey) :=
  get_journal_entries_sorted db5 c3list rfl

/-! ## Claim theorem: the condensation date range -/

/-- The end-of-range computation of `condense_journal_entries` lands on
the last instant of the target month, with month lengths and leap-year
February handled by the `day=28 + 4 days` jump. -/
theorem condense_end_eq (month year : Nat) (hm₁ : 1 ≤ month) (hm₂ : month ≤ 12) :
    condense_end month year =
      { year := year, month := month, day := daysInMonth year month, hour := 23,
        minute := 59, second := 59, microsecond := 999999 } := by
  interval_cases month <;>
    cases hL : isLeap year <;>
      simp [condense_end, condense_start, addDays, nextDay, predMicro,
        daysInMonth, hL]

/-- C6: the range condensed for `(month, year)` runs from the first
instant of the calendar month to its last instant (last day, correct for
month lengths and leap years, at `23:59:59.999999`), and the rows the
fetch selects are exactly the stored journal rows — condensed or not —
whose timestamps fall chronologically inside that range. -/
theorem condense_range_exact (month year : Nat)
    (hm₁ : 1 ≤ month) (hm₂ : month ≤ 12) (hy₁ : 1 ≤ year) (hy₂ : year ≤ 9999)
    (db : Database) (dt : JournalRow → DateTime)
    (hdt : ∀ r ∈ db.store.journal_entries,
      (dt r).Valid ∧ r.date = isoformat (dt r)) :
    condense_start month year =
      { year := year, month := month, day := 1, hour := 0, minute := 0,
        second := 0, microsecond := 0 } ∧
    condense_end month year =
      { year := year, month := month, day := daysInMonth year month, hour := 23,
        minute := 59, second := 59, microsecond := 999999 } ∧
    db.store.journal_entries.filter
        (fun r => matchesRange (some (isoformat (condense_start month year)))
          (some (isoformat (condense_end month year))) r.date) =
      db.store.journal_entries.filter
        (fun r => decide ((condense_start month year).toKey ≤ (dt r).toKey) &&
          decide ((dt r).toKey ≤ (condense_end month year).toKey)) := by
  have hstartv : (condense_start month year).Valid := by
    refine ⟨hy₁, hy₂, hm₁, hm₂, le_refl 1, daysInMonth_pos year month,
      ?_, ?_, ?_, ?_⟩ <;> norm_num [condense_start]
  have hendv : (condense_end month year).Valid := by
    rw [condense_end_eq month year hm₁ hm₂]
    exact ⟨hy₁, hy₂, hm₁, hm₂, daysInMonth_pos year month, le_refl _,
      by norm_num, by norm_num, by norm_num, by norm_num⟩
  refine ⟨rfl, condense_end_eq month year hm₁ hm₂, ?_⟩
  apply List.filter_congr
  intro r hr
  obtain ⟨hv, hdate⟩ := hdt r hr
  simp only [matchesRange]
  rw [hdate, strLeb_isoformat _ _ hstartv hv, strLeb_isoformat _ _ hv hendv]

/-- C6 witness: May 2023 over the five-entry store, whose row ids happen
to equal the day of month of their timestamps. -/
theorem condense_range_exact_witness :
    condense_start 5 2023 =
      { year := 2023, month := 5, day := 1, hour := 0, minute := 0,
        second := 0, microsecond := 0 } ∧
    condense_end 5 2023 =
      { year := 2023, month := 5, day := daysInMonth 2023 5, hour := 23,
        minute := 59, second := 59, microsecond := 999999 } ∧
    db5.store.journal_entries.filter
        (fun r => matchesRange (some (isoformat (condense_start 5 2023)))
          (some (isoformat (condense_end 5 2023))) r.date) =
      db5.store.journal_entries.filter
        (fun r => decide ((condense_start 5 2023).toKey ≤
            (DateTime.mk 2023 5 r.id 0 0 0 0).toKey) &&
          decide ((DateTime.mk 2023 5 r.id 0 0 0 0).toKey ≤
            (condense_end 5 2023).toKey)) :=
  condense_range_exact 5 2023 (by decide) (by decide) (by decide) (by decide)
    db5 (fun r => DateTime.mk 2023 5 r.id 0 0 0 0) (by decide)

end DrClaude
